import Mathlib

/-!
Verification of the compression-orchestration pipeline of the
elektron-fast-image-kompressor repository, shallowly embedded in Lean.

The embedding follows the JavaScript sources:
* `src/unnamed/part_001` (`fileNameSanitizer.js`): `sanitizeFileName`,
  `restoreOriginalNames`;
* `src/unnamed/part_000` (`fileSizeAnalyzer.js`): `calculateStats`;
* `src/imageProcessor.js` (Sharp variant, lines 1-588): the sequential
  converting loop `processSharpSequential`, `updateProgress`,
  `performCleanup`, `cancel`, and (imagemin variant, lines 588-1045)
  `getOptimalChunkSize` and its `updateProgress`.

Filesystem and codec effects are modelled by explicit oracles: each file's
codec attempt has an abstract outcome, the per-iteration `fs.access` check
on the output directory and the arrival of an external cancel request are
Boolean schedules indexed by the loop iteration.
-/

/-! ## Character classes of the sanitizer's regexes

`fileNameSanitizer.js` uses `/[^\w\s\-_.()[\]]/g` (problematic characters)
and `/\s+/g` (whitespace runs).  JavaScript `\w` is `[A-Za-z0-9_]`; `\s` is
the ECMAScript WhiteSpace/LineTerminator set. -/

/-- JavaScript regex `\w`: ASCII letters, digits and underscore. -/
def jsIsWordChar (c : Char) : Bool :=
  c.isAlpha || c.isDigit || c = '_'

/-- JavaScript regex `\s`: the ECMAScript whitespace and line-terminator
characters. -/
def jsIsSpace (c : Char) : Bool :=
  c.val = 0x20 || (0x9 ≤ c.val && c.val ≤ 0xD) || c.val = 0xA0 ||
  c.val = 0x1680 || (0x2000 ≤ c.val && c.val ≤ 0x200A) ||
  c.val = 0x2028 || c.val = 0x2029 || c.val = 0x202F ||
  c.val = 0x205F || c.val = 0x3000 || c.val = 0xFEFF

/-- Complement of `this.problematicChars = /[^\w\s\-_.()[\]]/g`: a character
is safe iff it is a word character, whitespace, or one of `-_.()[]`. -/
def isSafeChar (c : Char) : Bool :=
  jsIsWordChar c || jsIsSpace c ||
  c = '-' || c = '_' || c = '.' || c = '(' || c = ')' || c = '[' || c = ']'

/-! ## `path.extname` / `path.basename` (Node, for separator-free names)

`splitExtAux l` splits `l` at its last dot: it returns `(b, e)` with
`l = b ++ e`, where `e` is empty when `l` has no dot and otherwise starts
at the last dot of `l`. -/

def splitExtAux : List Char → List Char × List Char
  | [] => ([], [])
  | c :: rest =>
    match splitExtAux rest with
    | (rb, []) => if c = '.' then ([], '.' :: rb) else (c :: rb, [])
    | (rb, re) => (c :: rb, re)

/-- Node `path.extname` restricted to names without path separators: the
part from the last dot, except that a dot in first position does not count
and the name `".."` has no extension. -/
def extnameL (l : List Char) : List Char :=
  match splitExtAux l with
  | (_, []) => []
  | ([], _) => []
  | (_, e) => if l = ['.', '.'] then [] else e

/-- Node `path.basename(p, ext)` restricted to names without path
separators: strips `ext` when it is a proper suffix of `l`. -/
def basenameStrip (l ext : List Char) : List Char :=
  if ext ≠ [] ∧ l ≠ ext ∧ l.drop (l.length - ext.length) = ext then
    l.take (l.length - ext.length)
  else l

/-! ## The sanitizer pipeline (`sanitizeFileName`) -/

/-- `baseName.replace(this.problematicChars, '_')`: every character outside
the safe set becomes `'_'`. -/
def replaceProblematic (l : List Char) : List Char :=
  l.map (fun c => if isSafeChar c then c else '_')

/-- `.replace(this.multipleSpaces, '_')` with `multipleSpaces = /\s+/g`:
every maximal run of one or more whitespace characters becomes a single
`'_'`.  The Boolean argument records whether the previous character was
part of a whitespace run. -/
def collapseWS : Bool → List Char → List Char
  | _, [] => []
  | inRun, c :: rest =>
    if jsIsSpace c then
      if inRun then collapseWS true rest else '_' :: collapseWS true rest
    else c :: collapseWS false rest

/-- Trailing half of `.replace(/^_+|_+$/g, '')`. -/
def dropTrailingUnderscores : List Char → List Char
  | [] => []
  | c :: rest =>
    match dropTrailingUnderscores rest with
    | [] => if c = '_' then [] else [c]
    | r => c :: r

/-- `.replace(/^_+|_+$/g, '')`: removes the leading and the trailing run of
underscores. -/
def trimUnderscores (l : List Char) : List Char :=
  dropTrailingUnderscores (l.dropWhile (fun c => c = '_'))

/-- The extension-free part of `sanitizeFileName`: replace problematic
characters by `'_'`, replace whitespace runs by `'_'`, truncate to 100
characters (`substring(0, 100)`), trim edge underscores, fall back to
`"sanitized_file"` when empty. -/
def sanitizeBody (baseName : List Char) : List Char :=
  let sanitized :=
    trimUnderscores ((collapseWS false (replaceProblematic baseName)).take 100)
  if sanitized = [] then "sanitized_file".data else sanitized

/-- `FileNameSanitizer.sanitizeFileName` (src/unnamed/part_001 lines 24-43):
strip the extension, apply the body pipeline, reattach the extension. -/
def sanitizeFileName (originalName : String) : String :=
  let l := originalName.data
  let ext := extnameL l
  let baseName := basenameStrip l ext
  String.mk (sanitizeBody baseName ++ ext)

/-- Modelled from the spec (for claim C5's refutation): the claimed variant
of `sanitizeFileName` in which only a run of two or more whitespace
characters is collapsed to `'_'`, while a single whitespace character, being
in the safe set, is kept verbatim.  The three states are: outside
whitespace, one pending whitespace character `w`, inside a run of length
at least two. -/
def collapseWSClaimedAux : Option (Option Char) → List Char → List Char
  | none, [] => []
  | some (some w), [] => [w]
  | some none, [] => ['_']
  | none, c :: rest =>
    if jsIsSpace c then collapseWSClaimedAux (some (some c)) rest
    else c :: collapseWSClaimedAux none rest
  | some (some w), c :: rest =>
    if jsIsSpace c then collapseWSClaimedAux (some none) rest
    else w :: c :: collapseWSClaimedAux none rest
  | some none, c :: rest =>
    if jsIsSpace c then collapseWSClaimedAux (some none) rest
    else '_' :: c :: collapseWSClaimedAux none rest

/-- Modelled from the spec: the pipeline of claim C5 verbatim, differing
from the source only in keeping single whitespace characters. -/
def sanitizeFileNameClaimed (originalName : String) : String :=
  let l := originalName.data
  let ext := extnameL l
  let baseName := basenameStrip l ext
  let sanitized :=
    trimUnderscores ((collapseWSClaimedAux none (replaceProblematic baseName)).take 100)
  let sanitized := if sanitized = [] then "sanitized_file".data else sanitized
  String.mk (sanitized ++ ext)

/-- `ImageProcessor.needsSanitization` (imageProcessor.js line 373):
whether the full filename contains a character outside the safe set. -/
def needsSanitization (filename : String) : Bool :=
  filename.data.any (fun c => !isSafeChar c)

/-- Output filename used by both `processSharpClean` and
`processSharpSanitized`:
`path.basename(name, path.extname(name)) + '.webp'`. -/
def webpName (name : String) : String :=
  String.mk (basenameStrip name.data (extnameL name.data) ++ ".webp".data)

example : sanitizeFileName "a b.png" = "a_b.png" := by decide
example : sanitizeFileNameClaimed "a b.png" = "a b.png" := by decide
example : sanitizeFileName "héllo#x.png" = "h_llo_x.png" := by decide
example : sanitizeFileName "###.png" = "sanitized_file.png" := by decide
example : sanitizeFileName "_._." = ".." := by decide
example : sanitizeFileName ".." = ".." := by decide
example : sanitizeFileName ".hidden" = ".hidden" := by decide

/-! ## Size analyzer (`fileSizeAnalyzer.js`)

`calculateStats` (src/unnamed/part_000 lines 132-160) derives the
compression statistics from the two measured snapshots.  `inputStats`
carries `totalSize` (sum of measured byte sizes) and `totalFiles`;
`outputStats` carries `totalSize` and `successfulFiles`. -/

structure InputSnapshot where
  totalSize : ℕ
  totalFiles : ℕ
  deriving Repr, DecidableEq

structure OutputSnapshot where
  totalSize : ℕ
  successfulFiles : ℕ
  deriving Repr, DecidableEq

/-- `compressionRatio` of the source is named `compressionPct` here (it is
a percentage: the source multiplies by 100). -/
structure CompressionStats where
  inputSize : ℕ
  outputSize : ℕ
  savings : ℤ
  compressionPct : ℚ
  inputFiles : ℕ
  outputFiles : ℕ
  failedFiles : ℤ
  deriving Repr, DecidableEq

/-- `FileSizeAnalyzer.calculateStats`:
`savings = inputSize - outputSize`,
`compressionRatio = inputSize > 0 ? (savings / inputSize) * 100 : 0`,
`outputFiles = outputStats.successfulFiles`,
`failedFiles = inputStats.totalFiles - outputStats.successfulFiles`. -/
def calculateStats (inputStats : InputSnapshot) (outputStats : OutputSnapshot) :
    CompressionStats :=
  let inputSize := inputStats.totalSize
  let outputSize := outputStats.totalSize
  let savings : ℤ := (inputSize : ℤ) - (outputSize : ℤ)
  { inputSize := inputSize
    outputSize := outputSize
    savings := savings
    compressionPct := if 0 < inputSize then ((savings : ℚ) / (inputSize : ℚ)) * 100 else 0
    inputFiles := inputStats.totalFiles
    outputFiles := outputStats.successfulFiles
    failedFiles := (inputStats.totalFiles : ℤ) - (outputStats.successfulFiles : ℤ) }

/-! ## Batch sizing (`getOptimalChunkSize`, imagemin variant lines 669-680)

`os.totalmem()` and `os.freemem()` are nonnegative byte counts; the
arithmetic is modelled over `ℚ` with an explicit floor. -/

/-- `ImageProcessor.getOptimalChunkSize`:
`availableMemory = min(total * 0.3, free * 0.5)`, an estimated 10 MB per
image, `Math.floor` of the quotient, clamped by
`Math.max(10, Math.min(100, ...))`. -/
def getOptimalChunkSize (totalMemory freeMemory : ℚ) : ℤ :=
  let availableMemory := min (totalMemory * (3 / 10)) (freeMemory * (1 / 2))
  let estimatedMemoryPerImage : ℚ := 10 * 1024 * 1024
  let optimalChunkSize := ⌊availableMemory / estimatedMemoryPerImage⌋
  max 10 (min 100 optimalChunkSize)

/-! ## Progress emission (`updateProgress`)

Whether the registered progress callback is invoked, as a function of the
relevant state bits.  The Sharp variant (imageProcessor.js lines 533-542)
guards on `this.progressCallback && !this.isCancelled`; the imagemin
variant (lines 1027-1037) guards on `this.progressCallback` only. -/

/-- Sharp-variant `updateProgress`: the callback fires iff one is
registered and the cancellation flag is clear. -/
def updateProgressEmitsSharp (hasCallback isCancelled : Bool) : Bool :=
  hasCallback && !isCancelled

/-- Imagemin-variant `updateProgress`: the callback fires iff one is
registered; the cancellation flag is not consulted. -/
def updateProgressEmitsImagemin (hasCallback _isCancelled : Bool) : Bool :=
  hasCallback

/-! ## Name restoration (`FileNameSanitizer.restoreOriginalNames`,
src/unnamed/part_001 lines 84-135)

The temp-file map is an association list keyed by staged temp path.  The
host path separator `sep` parameterizes `path.join`; the outcome of
`fs.rename` is an oracle returning `none` on success and the error message
otherwise. -/

structure TempInfo where
  original : String
  originalName : String
  deriving Repr, DecidableEq

structure ProcessedDesc where
  sourcePath : String
  destinationPath : String
  deriving Repr, DecidableEq

structure RestoredFile where
  original : String
  compressed : Option String
  finalPath : Option String
  error : Option String
  success : Bool
  deriving Repr, DecidableEq

/-- `path.join(a, b)` for a host whose separator is `sep`. -/
def pathJoin (sep : Char) (a b : String) : String :=
  a ++ String.mk [sep] ++ b

/-- `file.sourcePath.replace(/\//g, '\\')`: every forward slash becomes a
backslash, unconditionally. -/
def normalizeSourcePath (s : String) : String :=
  String.mk (s.data.map (fun c => if c = '/' then '\\' else c))

/-- The body of the `restoreOriginalNames` loop for one processed
descriptor. -/
def restoreOne (tempFileMap : List (String × TempInfo)) (outputDir : String)
    (sep : Char) (renameErr : ProcessedDesc → Option String)
    (f : ProcessedDesc) : RestoredFile :=
  let normalizedSourcePath := normalizeSourcePath f.sourcePath
  match tempFileMap.lookup normalizedSourcePath with
  | none =>
    { original := "unknown", compressed := none, finalPath := none
      error := some "No mapping found", success := false }
  | some tempInfo =>
    let originalBaseName :=
      basenameStrip tempInfo.originalName.data (extnameL tempInfo.originalName.data)
    let newFileName := String.mk originalBaseName ++ ".webp"
    let newPath := pathJoin sep outputDir newFileName
    match renameErr f with
    | none =>
      { original := tempInfo.originalName, compressed := some newFileName
        finalPath := some newPath, error := none, success := true }
    | some msg =>
      { original := tempInfo.originalName, compressed := none
        finalPath := none, error := some msg, success := false }

/-- `FileNameSanitizer.restoreOriginalNames`: the loop over the processed
descriptors, emitting one `RestoredFile` per descriptor. -/
def restoreOriginalNames (tempFileMap : List (String × TempInfo))
    (outputDir : String) (sep : Char)
    (renameErr : ProcessedDesc → Option String) :
    List ProcessedDesc → List RestoredFile
  | [] => []
  | f :: rest =>
    restoreOne tempFileMap outputDir sep renameErr f ::
      restoreOriginalNames tempFileMap outputDir sep renameErr rest

/-! ## The Sharp sequential run (`imageProcessor.js`, Sharp variant)

`processSharpSequential` (lines 269-370) iterates over the scanned files.
Per iteration `i` it:
1. breaks when `this.isCancelled` is set (modelled: an external cancel
   request arrived at or before the check, schedule `cancelBefore`);
2. throws `'Output folder was removed - processing cancelled'` when
   `fs.access(outputPath)` fails (schedule `outDirOk`); the catch branch
   (lines 341-346) sees the substring `'cancelled'` in the message and
   breaks without recording a result and without setting the flag;
3. creates the shared temp directory on first need
   (`needsSanitization file.name`), pushing it onto
   `this.tempDirectories`;
4. runs the codec on the file.  The outcome oracle distinguishes: success
   (`ok`), a thrown error with message `msg` (`err msg`, breaking the loop
   when the message contains `'cancelled'`), and cancellation detected
   mid-file (`cancelMid`, the post-processing checks of
   `processSharpClean`/`processSharpSanitized` that unlink the created
   output and throw, so the catch breaks with the flag set).
On success a result is pushed, `processedCount` incremented and the output
file created; on a non-cancellation error a failure result is pushed and
`processedCount` incremented (line 354).  After the loop the temp
directory is removed only when it was created and the run was not
cancelled (lines 359-366). -/

inductive Outcome where
  | ok
  | err (msg : String)
  | cancelMid
  deriving Repr, DecidableEq

structure Env where
  cancelBefore : ℕ → Bool
  outDirOk : ℕ → Bool
  outcome : ℕ → Outcome

structure ImageFile where
  name : String
  deriving Repr, DecidableEq

inductive PResult where
  | success (original compressed : String)
  | failure (original msg : String)
  deriving Repr, DecidableEq

/-- The `original` field carried by either kind of result. -/
def PResult.original : PResult → String
  | .success o _ => o
  | .failure o _ => o

/-- Whether `pat` occurs as a contiguous sublist of the argument. -/
def containsSub (pat : List Char) : List Char → Bool
  | [] => pat.isPrefixOf []
  | c :: rest => pat.isPrefixOf (c :: rest) || containsSub pat rest

/-- `error.message.includes('cancelled')`. -/
def msgMentionsCancelled (msg : String) : Bool :=
  containsSub "cancelled".data msg.data

structure RunState where
  results : List PResult
  processedCount : ℕ
  cancelled : Bool
  tempDirCreated : Bool
  tempDirInList : Bool
  tempDirPresent : Bool
  outputDirPresent : Bool
  outputFileCount : ℕ
  deriving Repr, DecidableEq

/-- State right after `createOutputFolder` succeeded: the output directory
exists, nothing processed yet. -/
def initialRunState : RunState :=
  { results := [], processedCount := 0, cancelled := false
    tempDirCreated := false, tempDirInList := false, tempDirPresent := false
    outputDirPresent := true, outputFileCount := 0 }

/-- Temp-directory creation on first need (lines 308-314). -/
def createTempIfNeeded (f : ImageFile) (s : RunState) : RunState :=
  if needsSanitization f.name && !s.tempDirCreated then
    { s with tempDirCreated := true, tempDirInList := true, tempDirPresent := true }
  else s

/-- The `for` loop of `processSharpSequential`, iteration index `i`. -/
def runFrom (env : Env) : List ImageFile → ℕ → RunState → RunState
  | [], _, s => s
  | f :: rest, i, s =>
    if env.cancelBefore i then { s with cancelled := true }
    else if !env.outDirOk i then s
    else
      let s1 := createTempIfNeeded f s
      match env.outcome i with
      | .cancelMid => { s1 with cancelled := true }
      | .ok =>
        runFrom env rest (i + 1)
          { s1 with
            results := s1.results ++ [PResult.success f.name (webpName f.name)]
            processedCount := s1.processedCount + 1
            outputFileCount := s1.outputFileCount + 1 }
      | .err msg =>
        if msgMentionsCancelled msg then s1
        else
          runFrom env rest (i + 1)
            { s1 with
              results := s1.results ++ [PResult.failure f.name msg]
              processedCount := s1.processedCount + 1 }

/-- `processSharpSequential`: the loop followed by the non-cancelled
temp-directory cleanup (lines 359-366). -/
def processSharpSequentialM (env : Env) (files : List ImageFile) : RunState :=
  let s := runFrom env files 0 initialRunState
  if s.tempDirCreated && !s.cancelled then
    { s with tempDirPresent := false, tempDirInList := false }
  else s

/-- `ImageProcessor.performCleanup` (lines 545-574): removes every
directory in `this.tempDirectories`; removes the output directory only
when `this.processedCount === 0`. -/
def performCleanup (s : RunState) : RunState :=
  { s with
    tempDirPresent := s.tempDirPresent && !s.tempDirInList
    tempDirInList := false
    outputDirPresent := s.outputDirPresent && !(s.processedCount == 0) }

/-- Outcome surfaced by `processImages` to its caller. -/
inductive RunOutcome where
  | completed (results : List PResult)
  | cancelledOutcome
  deriving Repr, DecidableEq

/-- `ImageProcessor.processImages` around the converting phase (lines
226-265): after `processSharpSequential`, when `this.isCancelled` is set
the run performs cleanup and surfaces the cancellation outcome; otherwise
it proceeds to statistics and returns the success outcome carrying the
per-file results. -/
def processImagesModel (env : Env) (files : List ImageFile) :
    RunOutcome × RunState :=
  let s := processSharpSequentialM env files
  if s.cancelled then (RunOutcome.cancelledOutcome, performCleanup s)
  else (RunOutcome.completed s.results, s)

/-- The result recorded for file `f` at iteration `i` when the loop does
not break there. -/
def expectedResult (env : Env) (i : ℕ) (f : ImageFile) : PResult :=
  match env.outcome i with
  | .ok => PResult.success f.name (webpName f.name)
  | .err msg => PResult.failure f.name msg
  | .cancelMid => PResult.failure f.name ""

/-- The results of a stretch of iterations that all complete. -/
def expectedList (env : Env) : ℕ → List ImageFile → List PResult
  | _, [] => []
  | i, f :: rest => expectedResult env i f :: expectedList env (i + 1) rest

/-! ## Helper lemmas: the sanitizer's list pipeline -/

theorem isSafeChar_underscore : isSafeChar '_' = true := by decide

theorem jsIsSpace_underscore : jsIsSpace '_' = false := by decide

theorem mem_replaceProblematic {c : Char} {l : List Char}
    (h : c ∈ replaceProblematic l) : c ∈ l ∨ c = '_' := by
  unfold replaceProblematic at h
  rcases List.mem_map.mp h with ⟨a, ha, hc⟩
  by_cases hs : isSafeChar a = true
  · left; rw [hs] at hc; simpa [← hc] using ha
  · right; simp [hs] at hc; exact hc.symm

theorem replaceProblematic_safe {c : Char} {l : List Char}
    (h : c ∈ replaceProblematic l) : isSafeChar c = true := by
  unfold replaceProblematic at h
  rcases List.mem_map.mp h with ⟨a, _, hc⟩
  by_cases hs : isSafeChar a = true
  · rw [if_pos hs] at hc; rw [← hc]; exact hs
  · rw [if_neg hs] at hc; rw [← hc]; exact isSafeChar_underscore

theorem replaceProblematic_id {l : List Char}
    (h : ∀ c ∈ l, isSafeChar c = true) : replaceProblematic l = l := by
  induction l with
  | nil => rfl
  | cons c rest ih =>
    unfold replaceProblematic at ih ⊢
    simp only [List.map_cons, List.cons.injEq]
    refine ⟨by rw [if_pos (h c (by simp))], ih (fun x hx => h x (by simp [hx]))⟩

theorem mem_collapseWS {c : Char} :
    ∀ {l : List Char} {b : Bool}, c ∈ collapseWS b l →
      c = '_' ∨ (c ∈ l ∧ jsIsSpace c = false) := by
  intro l
  induction l with
  | nil => intro b h; simp [collapseWS] at h
  | cons x rest ih =>
    intro b h
    unfold collapseWS at h
    by_cases hx : jsIsSpace x = true
    · rw [if_pos hx] at h
      cases b with
      | true =>
        rw [if_pos rfl] at h
        rcases ih h with h' | ⟨h1, h2⟩
        · exact Or.inl h'
        · exact Or.inr ⟨List.mem_cons_of_mem _ h1, h2⟩
      | false =>
        rw [if_neg (by simp)] at h
        rcases List.mem_cons.mp h with h' | h'
        · exact Or.inl h'
        · rcases ih h' with h'' | ⟨h1, h2⟩
          · exact Or.inl h''
          · exact Or.inr ⟨List.mem_cons_of_mem _ h1, h2⟩
    · rw [if_neg hx] at h
      rcases List.mem_cons.mp h with h' | h'
      · subst h'
        exact Or.inr ⟨List.mem_cons_self _ _, Bool.not_eq_true _ ▸ (by simpa using hx)⟩
      · rcases ih h' with h'' | ⟨h1, h2⟩
        · exact Or.inl h''
        · exact Or.inr ⟨List.mem_cons_of_mem _ h1, h2⟩

theorem collapseWS_no_space {c : Char} {l : List Char} {b : Bool}
    (h : c ∈ collapseWS b l) : jsIsSpace c = false := by
  rcases mem_collapseWS h with h' | ⟨_, h'⟩
  · rw [h']; exact jsIsSpace_underscore
  · exact h'

theorem collapseWS_id {l : List Char}
    (h : ∀ c ∈ l, jsIsSpace c = false) : ∀ b, collapseWS b l = l := by
  induction l with
  | nil => intro b; rfl
  | cons c rest ih =>
    intro b
    unfold collapseWS
    rw [if_neg (by simp [h c (by simp)])]
    rw [ih (fun x hx => h x (by simp [hx]))]

theorem mem_dropTrailingUnderscores {c : Char} :
    ∀ {l : List Char}, c ∈ dropTrailingUnderscores l → c ∈ l := by
  intro l
  induction l with
  | nil => intro h; simp [dropTrailingUnderscores] at h
  | cons x rest ih =>
    intro h
    unfold dropTrailingUnderscores at h
    cases hdt : dropTrailingUnderscores rest with
    | nil =>
      rw [hdt] at h
      by_cases hx : x = '_'
      · rw [if_pos hx] at h; simp at h
      · rw [if_neg hx] at h
        simp at h
        simp [h]
    | cons y ys =>
      rw [hdt] at h
      rcases List.mem_cons.mp h with h' | h'
      · simp [h']
      · exact List.mem_cons_of_mem _ (ih (hdt ▸ h'))

theorem dropTrailingUnderscores_getLast? {c : Char} :
    ∀ {l : List Char}, (dropTrailingUnderscores l).getLast? = some c → c ≠ '_' := by
  intro l
  induction l with
  | nil => intro h; simp [dropTrailingUnderscores] at h
  | cons x rest ih =>
    intro h
    unfold dropTrailingUnderscores at h
    cases hdt : dropTrailingUnderscores rest with
    | nil =>
      rw [hdt] at h
      by_cases hx : x = '_'
      · rw [if_pos hx] at h; simp at h
      · rw [if_neg hx] at h
        simp at h
        rw [← h]; exact hx
    | cons y ys =>
      rw [hdt] at h
      rw [List.getLast?_cons_cons] at h
      exact ih (hdt ▸ h)

theorem dropTrailingUnderscores_head? :
    ∀ (l : List Char), dropTrailingUnderscores l = [] ∨
      (dropTrailingUnderscores l).head? = l.head? := by
  intro l
  cases l with
  | nil => left; rfl
  | cons x rest =>
    unfold dropTrailingUnderscores
    cases hdt : dropTrailingUnderscores rest with
    | nil =>
      by_cases hx : x = '_'
      · left; rw [if_pos hx]
      · right; rw [if_neg hx]; rfl
    | cons y ys => right; rfl

theorem dropTrailingUnderscores_id :
    ∀ {l : List Char}, (∀ c, l.getLast? = some c → c ≠ '_') →
      dropTrailingUnderscores l = l := by
  intro l
  induction l with
  | nil => intro _; rfl
  | cons x rest ih =>
    intro h
    have hrec : dropTrailingUnderscores rest = rest := by
      refine ih (fun c hc => h c ?_)
      cases rest with
      | nil => simp at hc
      | cons y ys => rw [List.getLast?_cons_cons]; exact hc
    unfold dropTrailingUnderscores
    rw [hrec]
    cases rest with
    | nil => simp [h x (by simp)]
    | cons y ys => rfl

theorem length_dropTrailingUnderscores :
    ∀ (l : List Char), (dropTrailingUnderscores l).length ≤ l.length := by
  intro l
  induction l with
  | nil => simp [dropTrailingUnderscores]
  | cons x rest ih =>
    unfold dropTrailingUnderscores
    cases hdt : dropTrailingUnderscores rest with
    | nil =>
      by_cases hx : x = '_'
      · rw [if_pos hx]; simp
      · rw [if_neg hx]; simp
    | cons y ys =>
      rw [hdt] at ih
      simpa using Nat.succ_le_succ ih

/-! Trim lemmas combining the leading `dropWhile` with the trailing half. -/

theorem mem_trimUnderscores {c : Char} {l : List Char}
    (h : c ∈ trimUnderscores l) : c ∈ l := by
  unfold trimUnderscores at h
  exact (List.dropWhile_sublist _).mem (mem_dropTrailingUnderscores h)

theorem trimUnderscores_head? {c : Char} {l : List Char}
    (h : (trimUnderscores l).head? = some c) : c ≠ '_' := by
  unfold trimUnderscores at h
  rcases dropTrailingUnderscores_head? (l.dropWhile (fun c => c = '_')) with he | he
  · rw [he] at h; simp at h
  · rw [he] at h
    have := List.head?_dropWhile_not (fun c => decide (c = '_')) l
    rw [h] at this
    simpa using this

theorem trimUnderscores_getLast? {c : Char} {l : List Char}
    (h : (trimUnderscores l).getLast? = some c) : c ≠ '_' :=
  dropTrailingUnderscores_getLast? h

theorem trimUnderscores_id {l : List Char}
    (hh : ∀ c, l.head? = some c → c ≠ '_')
    (hl : ∀ c, l.getLast? = some c → c ≠ '_') :
    trimUnderscores l = l := by
  unfold trimUnderscores
  have hdw : l.dropWhile (fun c => c = '_') = l := by
    cases l with
    | nil => rfl
    | cons x rest =>
      rw [List.dropWhile_cons_of_neg]
      simpa using hh x rfl
  rw [hdw]
  exact dropTrailingUnderscores_id hl

theorem length_trimUnderscores (l : List Char) :
    (trimUnderscores l).length ≤ l.length := by
  unfold trimUnderscores
  exact le_trans (length_dropTrailingUnderscores _)
    (List.Sublist.length_le (List.dropWhile_sublist _))

/-! Characterization of `sanitizeBody`'s output: nonempty, at most 100
characters, only safe non-whitespace characters, no edge underscores. -/

theorem sanitizeBody_ne_nil (x : List Char) : sanitizeBody x ≠ [] := by
  simp only [sanitizeBody]
  split
  · decide
  · assumption

theorem fallback_chars_safe :
    ∀ c ∈ "sanitized_file".data, isSafeChar c = true ∧ jsIsSpace c = false := by
  decide

theorem fallback_head? : ("sanitized_file".data).head? = some 's' := rfl

theorem fallback_getLast? : ("sanitized_file".data).getLast? = some 'e' := by
  decide

theorem sanitizeBody_safe {c : Char} {x : List Char} (h : c ∈ sanitizeBody x) :
    isSafeChar c = true ∧ jsIsSpace c = false := by
  simp only [sanitizeBody] at h
  split at h
  · exact fallback_chars_safe c h
  · have hc : c ∈ collapseWS false (replaceProblematic x) :=
      List.mem_of_mem_take (mem_trimUnderscores h)
    refine ⟨?_, collapseWS_no_space hc⟩
    rcases mem_collapseWS hc with h' | ⟨h', _⟩
    · rw [h']; exact isSafeChar_underscore
    · exact replaceProblematic_safe h'

theorem sanitizeBody_length (x : List Char) : (sanitizeBody x).length ≤ 100 := by
  simp only [sanitizeBody]
  split
  · decide
  · exact le_trans (length_trimUnderscores _) (List.length_take_le _ _)

theorem sanitizeBody_head? {c : Char} {x : List Char}
    (h : (sanitizeBody x).head? = some c) : c ≠ '_' := by
  simp only [sanitizeBody] at h
  split at h
  · rw [fallback_head?] at h
    injection h with h
    rw [← h]; decide
  · exact trimUnderscores_head? h

theorem sanitizeBody_getLast? {c : Char} {x : List Char}
    (h : (sanitizeBody x).getLast? = some c) : c ≠ '_' := by
  simp only [sanitizeBody] at h
  split at h
  · rw [fallback_getLast?] at h
    injection h with h
    rw [← h]; decide
  · exact trimUnderscores_getLast? h

/-- The body pipeline is a fixpoint on its own output. -/
theorem sanitizeBody_idem (x : List Char) :
    sanitizeBody (sanitizeBody x) = sanitizeBody x := by
  have h1 : replaceProblematic (sanitizeBody x) = sanitizeBody x :=
    replaceProblematic_id (fun c hc => (sanitizeBody_safe hc).1)
  have h2 : collapseWS false (sanitizeBody x) = sanitizeBody x :=
    collapseWS_id (fun c hc => (sanitizeBody_safe hc).2) false
  have h3 : (sanitizeBody x).take 100 = sanitizeBody x :=
    List.take_of_length_le (sanitizeBody_length x)
  have h4 : trimUnderscores (sanitizeBody x) = sanitizeBody x :=
    trimUnderscores_id (fun c hc => sanitizeBody_head? hc)
      (fun c hc => sanitizeBody_getLast? hc)
  show (if trimUnderscores ((collapseWS false
      (replaceProblematic (sanitizeBody x))).take 100) = [] then
      "sanitized_file".data
    else trimUnderscores ((collapseWS false
      (replaceProblematic (sanitizeBody x))).take 100)) = sanitizeBody x
  rw [h1, h2, h3, h4, if_neg (sanitizeBody_ne_nil x)]

/-! Structure of `splitExtAux`, `extnameL`, `basenameStrip`. -/

theorem splitExtAux_append :
    ∀ (l : List Char), (splitExtAux l).1 ++ (splitExtAux l).2 = l := by
  intro l
  induction l with
  | nil => rfl
  | cons c rest ih =>
    rcases hsp : splitExtAux rest with ⟨rb, re⟩
    rw [hsp] at ih
    simp only at ih
    cases re with
    | nil =>
      simp only [splitExtAux, hsp]
      by_cases hc : c = '.'
      · rw [if_pos hc]
        simp at ih
        simp [hc, ih]
      · rw [if_neg hc]
        simp at ih
        simp [ih]
    | cons e es =>
      simp only [splitExtAux, hsp]
      simpa using ih

theorem splitExtAux_no_dot :
    ∀ {l : List Char}, '.' ∉ l → splitExtAux l = (l, []) := by
  intro l
  induction l with
  | nil => intro _; rfl
  | cons c rest ih =>
    intro h
    have hc : c ≠ '.' := fun hc => h (by simp [hc])
    have hrest : splitExtAux rest = (rest, []) :=
      ih (fun hr => h (List.mem_cons_of_mem _ hr))
    simp only [splitExtAux, hrest]
    rw [if_neg hc]

theorem splitExtAux_snd_nil :
    ∀ {l : List Char}, (splitExtAux l).2 = [] → '.' ∉ l := by
  intro l
  induction l with
  | nil => intro _ h; simp at h
  | cons c rest ih =>
    intro h
    rcases hsp : splitExtAux rest with ⟨rb, re⟩
    cases re with
    | nil =>
      by_cases hc : c = '.'
      · rw [show splitExtAux (c :: rest) = ([], '.' :: rb) by
          simp only [splitExtAux, hsp]; rw [if_pos hc]] at h
        simp at h
      · intro hmem
        rcases List.mem_cons.mp hmem with h' | h'
        · exact hc h'.symm
        · exact ih (by rw [hsp]) h'
    | cons e es =>
      rw [show splitExtAux (c :: rest) = (c :: rb, e :: es) by
        simp only [splitExtAux, hsp]] at h
      simp at h

theorem splitExtAux_snd_shape :
    ∀ (l : List Char), (splitExtAux l).2 = [] ∨
      ∃ t, (splitExtAux l).2 = '.' :: t ∧ '.' ∉ t := by
  intro l
  induction l with
  | nil => left; rfl
  | cons c rest ih =>
    rcases hsp : splitExtAux rest with ⟨rb, re⟩
    rw [hsp] at ih
    simp only at ih
    cases re with
    | nil =>
      by_cases hc : c = '.'
      · right
        refine ⟨rb, ?_, ?_⟩
        · simp only [splitExtAux, hsp]; rw [if_pos hc]
        · have : '.' ∉ rest := splitExtAux_snd_nil (by rw [hsp])
          intro hr
          have hsub : rb ++ ([] : List Char) = rest := by
            have := splitExtAux_append rest
            rwa [hsp] at this
          simp at hsub
          exact this (hsub ▸ hr)
      · left
        simp only [splitExtAux, hsp]
        rw [if_neg hc]
    | cons e es =>
      rcases ih with h | ⟨t, ht, hdot⟩
      · simp at h
      · right
        refine ⟨t, ?_, hdot⟩
        rw [show splitExtAux (c :: rest) = (c :: rb, e :: es) by
          simp only [splitExtAux, hsp]]
        simpa using ht

theorem splitExtAux_concat {t : List Char} (ht : '.' ∉ t) :
    ∀ (b : List Char), splitExtAux (b ++ '.' :: t) = (b, '.' :: t) := by
  intro b
  induction b with
  | nil =>
    have hrest : splitExtAux t = (t, []) := splitExtAux_no_dot ht
    simp only [List.nil_append, splitExtAux, hrest]
    simp
  | cons c bs ih =>
    show splitExtAux (c :: (bs ++ '.' :: t)) = (c :: bs, '.' :: t)
    simp only [splitExtAux, ih]

theorem extnameL_no_dot {l : List Char} (h : '.' ∉ l) : extnameL l = [] := by
  unfold extnameL
  rw [splitExtAux_no_dot h]
  rcases l with _ | ⟨c, rest⟩ <;> rfl

theorem extnameL_leading_dot {t : List Char} (ht : '.' ∉ t) :
    extnameL ('.' :: t) = [] := by
  unfold extnameL
  rw [show ('.' :: t : List Char) = [] ++ '.' :: t from rfl,
    splitExtAux_concat ht]

theorem extnameL_concat {t b : List Char} (ht : '.' ∉ t) (hb : b ≠ [])
    (hne : b ++ '.' :: t ≠ ['.', '.']) :
    extnameL (b ++ '.' :: t) = '.' :: t := by
  unfold extnameL
  rw [splitExtAux_concat ht]
  cases b with
  | nil => exact absurd rfl hb
  | cons x xs => simp only; rw [if_neg hne]

/-- Case analysis on a name with empty extension: it has no dot, or it is
a single leading dot followed by a dot-free tail, or it is `".."`. -/
theorem extnameL_eq_nil_cases {l : List Char} (h : extnameL l = []) :
    '.' ∉ l ∨ (∃ t, l = '.' :: t ∧ '.' ∉ t) ∨ l = ['.', '.'] := by
  by_cases hdd : l = ['.', '.']
  · right; right; exact hdd
  · rcases hsnd : (splitExtAux l).2 with _ | ⟨e, es⟩
    · left; exact splitExtAux_snd_nil hsnd
    · rcases splitExtAux_snd_shape l with h2 | ⟨t, ht, hdot⟩
      · rw [hsnd] at h2; simp at h2
      · rcases hfst : (splitExtAux l).1 with _ | ⟨b, bs⟩
        · right; left
          refine ⟨t, ?_, hdot⟩
          have happ := splitExtAux_append l
          rw [hfst, ht] at happ
          simpa using happ.symm
        · exfalso
          have hcomp : extnameL l = if l = ['.', '.'] then [] else e :: es := by
            unfold extnameL
            rcases hsp : splitExtAux l with ⟨p1, p2⟩
            rw [hsp] at hsnd hfst
            simp only at hsnd hfst
            rw [hsnd, hfst]
          rw [hcomp, if_neg hdd] at h
          simp at h

/-- Case analysis on a name with nonempty extension: the extension starts
at the last dot, which is preceded by a nonempty prefix. -/
theorem extnameL_ne_nil_cases {l : List Char} (h : extnameL l ≠ []) :
    ∃ b t, l = b ++ '.' :: t ∧ extnameL l = '.' :: t ∧ '.' ∉ t ∧
      b ≠ [] ∧ l ≠ ['.', '.'] := by
  by_cases hdd : l = ['.', '.']
  · exfalso; apply h; rw [hdd]; decide
  · rcases hsp : splitExtAux l with ⟨p1, p2⟩
    cases p2 with
    | nil =>
      exfalso; apply h; unfold extnameL; rw [hsp]
      rcases p1 with _ | ⟨x, xs⟩ <;> rfl
    | cons e es =>
      cases p1 with
      | nil => exfalso; apply h; unfold extnameL; rw [hsp]
      | cons b bs =>
        rcases splitExtAux_snd_shape l with h2 | ⟨t, ht, hdot⟩
        · rw [hsp] at h2; simp at h2
        · rw [hsp] at ht; simp only at ht
          refine ⟨b :: bs, t, ?_, ?_, hdot, by simp, hdd⟩
          · have happ := splitExtAux_append l
            rw [hsp] at happ
            simp only at happ
            rw [ht] at happ
            exact happ.symm
          · unfold extnameL
            rw [hsp]
            simp only
            rw [if_neg hdd, ht]

theorem basenameStrip_nil_ext (l : List Char) : basenameStrip l [] = l := by
  unfold basenameStrip
  rw [if_neg (by simp)]

theorem basenameStrip_append {b ext : List Char} (hext : ext ≠ [])
    (hb : b ≠ []) : basenameStrip (b ++ ext) ext = b := by
  unfold basenameStrip
  have hlen : (b ++ ext).length - ext.length = b.length := by
    simp [List.length_append]
  rw [if_pos]
  · rw [hlen, List.take_left]
  · refine ⟨hext, ?_, by rw [hlen, List.drop_left]⟩
    intro hcontra
    have := congrArg List.length hcontra
    simp [List.length_append] at this
    exact hb this

/-! Tracking characters and leading dots through the body pipeline. -/

theorem mem_sanitizeBody {c : Char} {x : List Char} (h : c ∈ sanitizeBody x) :
    c ∈ x ∨ c = '_' ∨ c ∈ "sanitized_file".data := by
  simp only [sanitizeBody] at h
  split at h
  · right; right; exact h
  · have hc : c ∈ collapseWS false (replaceProblematic x) :=
      List.mem_of_mem_take (mem_trimUnderscores h)
    rcases mem_collapseWS hc with h' | ⟨h', _⟩
    · right; left; exact h'
    · rcases mem_replaceProblematic h' with h'' | h''
      · left; exact h''
      · right; left; exact h''

theorem dropTrailingUnderscores_cons_ne {c : Char} {z : List Char}
    (hc : c ≠ '_') :
    ∃ y, dropTrailingUnderscores (c :: z) = c :: y ∧
      ∀ d ∈ y, d ∈ z := by
  show ∃ y, (match dropTrailingUnderscores z with
    | [] => if c = '_' then [] else [c]
    | r => c :: r) = c :: y ∧ ∀ d ∈ y, d ∈ z
  cases hdt : dropTrailingUnderscores z with
  | nil => exact ⟨[], by rw [if_neg hc], by simp⟩
  | cons w ws =>
    refine ⟨w :: ws, rfl, fun d hd => ?_⟩
    exact mem_dropTrailingUnderscores (hdt ▸ hd)

theorem sanitizeBody_leading_dot {t : List Char} (ht : '.' ∉ t) :
    ∃ y, sanitizeBody ('.' :: t) = '.' :: y ∧ '.' ∉ y := by
  have h1 : replaceProblematic ('.' :: t) = '.' :: replaceProblematic t := by
    show (if isSafeChar '.' then '.' else '_') :: replaceProblematic t =
      '.' :: replaceProblematic t
    rw [if_pos (by decide)]
  have h2 : collapseWS false ('.' :: replaceProblematic t) =
      '.' :: collapseWS false (replaceProblematic t) := by
    conv_lhs => rw [collapseWS]
    rw [if_neg (by decide : ¬ jsIsSpace '.' = true)]
  have h3 : ('.' :: collapseWS false (replaceProblematic t)).take 100 =
      '.' :: (collapseWS false (replaceProblematic t)).take 99 :=
    List.take_succ_cons
  have h4 : ('.' :: (collapseWS false (replaceProblematic t)).take 99).dropWhile
      (fun c => c = '_') =
      '.' :: (collapseWS false (replaceProblematic t)).take 99 :=
    List.dropWhile_cons_of_neg (by simp)
  rcases dropTrailingUnderscores_cons_ne
      (z := (collapseWS false (replaceProblematic t)).take 99)
      (by decide : ('.' : Char) ≠ '_') with ⟨y, hy, hmem⟩
  refine ⟨y, ?_, ?_⟩
  · simp only [sanitizeBody, trimUnderscores, h1, h2, h3, h4, hy]
    rw [if_neg (by simp)]
  · intro hdot
    have hd := hmem '.' hdot
    have hd2 := List.mem_of_mem_take hd
    rcases mem_collapseWS hd2 with h' | ⟨h', _⟩
    · exact absurd h' (by decide)
    · rcases mem_replaceProblematic h' with h'' | h''
      · exact ht h''
      · exact absurd h'' (by decide)

/-- `sanitizeFileName` in terms of its components. -/
theorem sanitizeFileName_mk (L : List Char) :
    sanitizeFileName ⟨L⟩ =
      ⟨sanitizeBody (basenameStrip L (extnameL L)) ++ extnameL L⟩ := rfl

/-- The sanitizer is a projection: applying it twice equals applying it
once, for every input name. -/
theorem sanitizeFileName_idem (name : String) :
    sanitizeFileName (sanitizeFileName name) = sanitizeFileName name := by
  rcases name with ⟨l⟩
  rw [sanitizeFileName_mk l]
  by_cases hext : extnameL l = []
  · rw [hext, basenameStrip_nil_ext, List.append_nil]
    have hb0 : extnameL (sanitizeBody l) = [] := by
      rcases extnameL_eq_nil_cases hext with hnd | ⟨t, hlt, hdt⟩ | hdd
      · apply extnameL_no_dot
        intro hdot
        rcases mem_sanitizeBody hdot with h' | h' | h'
        · exact hnd h'
        · exact absurd h' (by decide)
        · exact absurd h' (by decide)
      · subst hlt
        rcases sanitizeBody_leading_dot hdt with ⟨y, hy, hdy⟩
        rw [hy]
        exact extnameL_leading_dot hdy
      · subst hdd
        decide
    rw [sanitizeFileName_mk (sanitizeBody l), hb0, basenameStrip_nil_ext,
      sanitizeBody_idem, List.append_nil]
  · rcases extnameL_ne_nil_cases hext with ⟨bb, t, hl, hextE, hdt, hbb, _⟩
    have hbase : basenameStrip l (extnameL l) = bb := by
      rw [hextE, hl]
      exact basenameStrip_append (by simp) hbb
    rw [hbase, hextE]
    by_cases hBdd : sanitizeBody bb ++ '.' :: t = ['.', '.']
    · rw [hBdd]
      decide
    · rw [sanitizeFileName_mk (sanitizeBody bb ++ '.' :: t),
        extnameL_concat hdt (sanitizeBody_ne_nil bb) hBdd,
        basenameStrip_append (by simp) (sanitizeBody_ne_nil bb),
        sanitizeBody_idem]

/-! ## Helper lemmas: the run model -/

theorem createTempIfNeeded_fields (f : ImageFile) (s : RunState) :
    (createTempIfNeeded f s).results = s.results ∧
    (createTempIfNeeded f s).processedCount = s.processedCount ∧
    (createTempIfNeeded f s).cancelled = s.cancelled ∧
    (createTempIfNeeded f s).outputFileCount = s.outputFileCount ∧
    (createTempIfNeeded f s).outputDirPresent = s.outputDirPresent := by
  unfold createTempIfNeeded
  split <;> simp

theorem createTempIfNeeded_temp_eq (f : ImageFile) (s : RunState) :
    (createTempIfNeeded f s).tempDirPresent = (createTempIfNeeded f s).tempDirInList ∨
    ((createTempIfNeeded f s).tempDirPresent = s.tempDirPresent ∧
      (createTempIfNeeded f s).tempDirInList = s.tempDirInList) := by
  unfold createTempIfNeeded
  split
  · left; rfl
  · right; exact ⟨rfl, rfl⟩

theorem expectedList_length (env : Env) :
    ∀ (i : ℕ) (files : List ImageFile),
      (expectedList env i files).length = files.length := by
  intro i files
  induction files generalizing i with
  | nil => rfl
  | cons f rest ih => simp [expectedList, ih]

theorem expectedList_map_original (env : Env) :
    ∀ (i : ℕ) (files : List ImageFile),
      (expectedList env i files).map PResult.original =
        files.map ImageFile.name := by
  intro i files
  induction files generalizing i with
  | nil => rfl
  | cons f rest ih =>
    simp only [expectedList, List.map_cons, ih]
    congr 1
    unfold expectedResult
    cases env.outcome i <;> rfl

/-- When no iteration breaks (no cancellation, output directory always
present, no error message containing `'cancelled'`), the loop records
exactly one result per file, in order, and stays uncancelled. -/
theorem runFrom_complete (env : Env) :
    ∀ (files : List ImageFile) (i : ℕ) (s : RunState),
      s.cancelled = false →
      (∀ k, k < files.length → env.cancelBefore (i + k) = false ∧
        env.outDirOk (i + k) = true ∧ env.outcome (i + k) ≠ Outcome.cancelMid ∧
        ∀ msg, env.outcome (i + k) = Outcome.err msg →
          msgMentionsCancelled msg = false) →
      (runFrom env files i s).results = s.results ++ expectedList env i files ∧
      (runFrom env files i s).cancelled = false := by
  intro files
  induction files with
  | nil => intro i s hs _; simp [runFrom, expectedList, hs]
  | cons f rest ih =>
    intro i s hs h
    have h0 := h 0 (by simp)
    rw [Nat.add_zero] at h0
    have hshift : ∀ k, k < rest.length → env.cancelBefore (i + 1 + k) = false ∧
        env.outDirOk (i + 1 + k) = true ∧
        env.outcome (i + 1 + k) ≠ Outcome.cancelMid ∧
        ∀ msg, env.outcome (i + 1 + k) = Outcome.err msg →
          msgMentionsCancelled msg = false := by
      intro k hk
      have hh := h (k + 1) (by simpa using Nat.succ_lt_succ hk)
      rwa [show i + (k + 1) = i + 1 + k by omega] at hh
    unfold runFrom
    rw [h0.1, if_neg (by simp), h0.2.1]
    simp only [Bool.not_true, Bool.false_eq_true, if_false]
    split
    · -- cancelMid: excluded by the hypothesis
      rename_i heq
      exact absurd heq h0.2.2.1
    · -- ok
      rename_i heq
      have hrec := ih (i + 1)
        { createTempIfNeeded f s with
          results := (createTempIfNeeded f s).results ++
            [PResult.success f.name (webpName f.name)]
          processedCount := (createTempIfNeeded f s).processedCount + 1
          outputFileCount := (createTempIfNeeded f s).outputFileCount + 1 }
        (by simp [(createTempIfNeeded_fields f s).2.2.1, hs]) hshift
      refine ⟨?_, hrec.2⟩
      rw [hrec.1]
      simp only [(createTempIfNeeded_fields f s).1]
      rw [show expectedList env i (f :: rest) =
        expectedResult env i f :: expectedList env (i + 1) rest from rfl]
      unfold expectedResult
      rw [heq]
      simp
    · -- err msg, not mentioning cancellation
      rename_i msg heq
      rw [h0.2.2.2 msg heq]
      simp only [Bool.false_eq_true, if_false]
      have hrec := ih (i + 1)
        { createTempIfNeeded f s with
          results := (createTempIfNeeded f s).results ++
            [PResult.failure f.name msg]
          processedCount := (createTempIfNeeded f s).processedCount + 1 }
        (by simp [(createTempIfNeeded_fields f s).2.2.1, hs]) hshift
      refine ⟨?_, hrec.2⟩
      rw [hrec.1]
      simp only [(createTempIfNeeded_fields f s).1]
      rw [show expectedList env i (f :: rest) =
        expectedResult env i f :: expectedList env (i + 1) rest from rfl]
      unfold expectedResult
      rw [heq]
      simp

theorem processSharpSequentialM_fields (env : Env) (files : List ImageFile) :
    (processSharpSequentialM env files).results =
      (runFrom env files 0 initialRunState).results ∧
    (processSharpSequentialM env files).cancelled =
      (runFrom env files 0 initialRunState).cancelled ∧
    (processSharpSequentialM env files).processedCount =
      (runFrom env files 0 initialRunState).processedCount ∧
    (processSharpSequentialM env files).outputFileCount =
      (runFrom env files 0 initialRunState).outputFileCount ∧
    (processSharpSequentialM env files).outputDirPresent =
      (runFrom env files 0 initialRunState).outputDirPresent := by
  simp only [processSharpSequentialM]
  split <;> simp

/-! ## Claim C4: `calculateStats` -/

/-- Counterexample to C4 as stated: with snapshots `(200 B, 1 file)` and
`(100 B, 1 file)` the source computes `compressionRatio = 50` (a
percentage), not `savings / inputSize = 1/2`. -/
theorem calculateStats_ratio_counterexample :
    (calculateStats ⟨200, 1⟩ ⟨100, 1⟩).compressionPct = 50 ∧
    (calculateStats ⟨200, 1⟩ ⟨100, 1⟩).savings = 100 ∧
    (calculateStats ⟨200, 1⟩ ⟨100, 1⟩).inputSize = 200 ∧
    ¬ ((calculateStats ⟨200, 1⟩ ⟨100, 1⟩).compressionPct =
      ((calculateStats ⟨200, 1⟩ ⟨100, 1⟩).savings : ℚ) /
        ((calculateStats ⟨200, 1⟩ ⟨100, 1⟩).inputSize : ℚ)) := by
  refine ⟨?_, ?_, ?_, ?_⟩ <;> norm_num [calculateStats]

/-- C4 (amended): for every pair of measured snapshots,
`savings = inputSize - outputSize`,
`failedFiles = inputFiles - outputFiles`, and the ratio field is the
percentage `(savings / inputSize) * 100`, equal to `0` when
`inputSize = 0` (no division by zero). -/
theorem calculateStats_spec (inputStats : InputSnapshot)
    (outputStats : OutputSnapshot) :
    (calculateStats inputStats outputStats).savings =
      (inputStats.totalSize : ℤ) - (outputStats.totalSize : ℤ) ∧
    (calculateStats inputStats outputStats).failedFiles =
      (inputStats.totalFiles : ℤ) - (outputStats.successfulFiles : ℤ) ∧
    (calculateStats inputStats outputStats).inputFiles = inputStats.totalFiles ∧
    (calculateStats inputStats outputStats).outputFiles =
      outputStats.successfulFiles ∧
    (calculateStats inputStats outputStats).compressionPct =
      (if 0 < inputStats.totalSize then
        ((((inputStats.totalSize : ℤ) - (outputStats.totalSize : ℤ)) : ℚ) /
          (inputStats.totalSize : ℚ)) * 100
      else 0) ∧
    (inputStats.totalSize = 0 →
      (calculateStats inputStats outputStats).compressionPct = 0) := by
  refine ⟨rfl, rfl, rfl, rfl, ?_, ?_⟩
  · simp only [calculateStats]
    push_cast
    rfl
  · intro h
    simp [calculateStats, h]

/-- Witness for `calculateStats_spec`: a zero-byte input snapshot yields a
zero ratio. -/
theorem calculateStats_spec_witness :
    (0 : ℕ) = 0 ∧ (calculateStats ⟨0, 3⟩ ⟨7, 2⟩).compressionPct = 0 :=
  ⟨rfl, (calculateStats_spec ⟨0, 3⟩ ⟨7, 2⟩).2.2.2.2.2 rfl⟩

/-! ## Claim C9: batch sizing -/

/-- C9 (confirmed): for every total and free system memory, including
extreme values, `getOptimalChunkSize` returns a value in `[10, 100]`. -/
theorem getOptimalChunkSize_bounds (totalMemory freeMemory : ℚ) :
    10 ≤ getOptimalChunkSize totalMemory freeMemory ∧
    getOptimalChunkSize totalMemory freeMemory ≤ 100 := by
  unfold getOptimalChunkSize
  exact ⟨le_max_left _ _, max_le (by norm_num) (min_le_left _ _)⟩

/-! ## Claim C7: progress emission under cancellation -/

/-- Counterexample to C7 as stated: in the imagemin variant of
`updateProgress`, with a callback registered and the cancellation flag
set, the callback is still invoked. -/
theorem updateProgress_imagemin_counterexample :
    updateProgressEmitsImagemin true true = true ∧
    updateProgressEmitsSharp true true = false :=
  ⟨rfl, rfl⟩

/-- C7 (amended): the Sharp-variant `updateProgress` never invokes the
callback once the cancellation flag is set; the imagemin-variant
`updateProgress` invokes it whenever a callback is registered, regardless
of the flag. -/
theorem updateProgress_cancel_guard (hasCallback : Bool) :
    updateProgressEmitsSharp hasCallback true = false ∧
    updateProgressEmitsImagemin hasCallback true = hasCallback := by
  constructor
  · simp [updateProgressEmitsSharp]
  · rfl

/-! ## Claim C5: the sanitizer pipeline -/

/-- Counterexample to C5 as stated: the source's `/\s+/g` also replaces a
single whitespace character with `'_'`; the claimed pipeline, which keeps
single whitespace characters, differs on `"a b.png"`. -/
theorem sanitize_single_whitespace_counterexample :
    sanitizeFileName "a b.png" = "a_b.png" ∧
    sanitizeFileNameClaimed "a b.png" = "a b.png" ∧
    sanitizeFileName "a b.png" ≠ sanitizeFileNameClaimed "a b.png" :=
  ⟨by decide, by decide, by decide⟩

/-- C5 (amended): `sanitizeFileName` strips the extension, replaces every
character outside the safe set with `'_'`, replaces every maximal
whitespace run — including a single whitespace character — with one `'_'`,
truncates the base to 100 characters, trims edge underscores, falls back
to `"sanitized_file"` when empty, and reattaches the original extension
unchanged: the output is the body followed by the verbatim extension, and
the body is nonempty, at most 100 characters, free of whitespace and
problematic characters, and free of edge underscores. -/
theorem sanitizeFileName_shape (name : String) :
    sanitizeFileName name =
      ⟨sanitizeBody (basenameStrip name.data (extnameL name.data)) ++
        extnameL name.data⟩ ∧
    sanitizeBody (basenameStrip name.data (extnameL name.data)) ≠ [] ∧
    (sanitizeBody (basenameStrip name.data (extnameL name.data))).length ≤ 100 ∧
    (∀ c ∈ sanitizeBody (basenameStrip name.data (extnameL name.data)),
      isSafeChar c = true ∧ jsIsSpace c = false) ∧
    (∀ c, (sanitizeBody (basenameStrip name.data (extnameL name.data))).head? =
      some c → c ≠ '_') ∧
    (∀ c, (sanitizeBody (basenameStrip name.data (extnameL name.data))).getLast? =
      some c → c ≠ '_') :=
  ⟨rfl, sanitizeBody_ne_nil _, sanitizeBody_length _,
    fun _ hc => sanitizeBody_safe hc,
    fun _ hc => sanitizeBody_head? hc,
    fun _ hc => sanitizeBody_getLast? hc⟩

/-- Witness for `sanitizeFileName_shape` at a concrete name with a single
interior space: the space is replaced, the extension preserved. -/
theorem sanitizeFileName_shape_witness :
    sanitizeFileName "a b.png" =
      ⟨sanitizeBody (basenameStrip ("a b.png" : String).data
        (extnameL ("a b.png" : String).data)) ++
        extnameL ("a b.png" : String).data⟩ ∧
    sanitizeBody (basenameStrip ("a b.png" : String).data
      (extnameL ("a b.png" : String).data)) ≠ [] :=
  ⟨(sanitizeFileName_shape "a b.png").1, (sanitizeFileName_shape "a b.png").2.1⟩

/-! ## Claim C8: idempotence on safe names -/

/-- C8 (confirmed): `sanitizeFileName` is idempotent on names all of whose
characters are in the safe set (it is in fact idempotent on every name,
`sanitizeFileName_idem`). -/
theorem sanitizeFileName_idempotent_on_safe (name : String)
    (_h : ∀ c ∈ name.data, isSafeChar c = true) :
    sanitizeFileName (sanitizeFileName name) = sanitizeFileName name :=
  sanitizeFileName_idem name

/-- Witness for `sanitizeFileName_idempotent_on_safe` at a concrete
already-safe name. -/
theorem sanitizeFileName_idempotent_on_safe_witness :
    (∀ c ∈ ("My File (1).png" : String).data, isSafeChar c = true) ∧
    sanitizeFileName (sanitizeFileName "My File (1).png") =
      sanitizeFileName "My File (1).png" :=
  ⟨by decide, sanitizeFileName_idempotent_on_safe "My File (1).png" (by decide)⟩

/-! ## Claim C2: `restoreOriginalNames` -/

/-- A staging map as `createTempFiles` builds it on a host whose path
separator is `'/'`: the key is the staged temp path. -/
def c2TempFileMap : List (String × TempInfo) :=
  [("tmp/a#1!.png", { original := "in/a#1!.png", originalName := "a#1!.png" })]

/-- The codec's descriptor for the staged file, echoing the staged source
path with forward slashes. -/
def c2Desc : ProcessedDesc :=
  { sourcePath := "tmp/a#1!.png", destinationPath := "out/a#1!.webp" }

/-- Counterexample to C2 as stated: the mapping entry for the staged
source path exists, yet on a host with separator `'/'` the lookup is
performed on the path with every `'/'` replaced by `'\'` (a hardcoded
Windows convention, not host normalization), misses, and a Failure with
`"No mapping found"` is emitted instead of Success. -/
theorem restore_separator_counterexample :
    (c2TempFileMap.lookup c2Desc.sourcePath).isSome = true ∧
    normalizeSourcePath c2Desc.sourcePath = "tmp\\a#1!.png" ∧
    restoreOne c2TempFileMap "out" '/' (fun _ => none) c2Desc =
      { original := "unknown", compressed := none, finalPath := none,
        error := some "No mapping found", success := false } :=
  ⟨by decide, by decide, by decide⟩

/-- C2 (amended): for every processed descriptor, `restoreOriginalNames`
emits exactly one result, computed independently per descriptor by
`restoreOne`: the `TempFileMapping` lookup key is the descriptor's staged
source path with every forward slash replaced by a backslash (a hardcoded
Windows-separator substitution, regardless of the host separator); if no
entry exists under that key, a Failure with error `"No mapping found"`
and original `"unknown"` is emitted and the run continues; otherwise the
processed artifact is renamed to `<originalBaseName>.webp` inside the
output directory and a Success is reported (or a Failure carrying the
rename error message when the rename throws). -/
theorem restoreOriginalNames_per_descriptor
    (tempFileMap : List (String × TempInfo)) (outputDir : String) (sep : Char)
    (renameErr : ProcessedDesc → Option String) (fs : List ProcessedDesc)
    (i : ℕ) :
    (restoreOriginalNames tempFileMap outputDir sep renameErr fs).length =
      fs.length ∧
    (restoreOriginalNames tempFileMap outputDir sep renameErr fs)[i]? =
      (fs[i]?).map (restoreOne tempFileMap outputDir sep renameErr) := by
  constructor
  · induction fs with
    | nil => rfl
    | cons f rest ih => simp [restoreOriginalNames, ih]
  · induction fs generalizing i with
    | nil => simp [restoreOriginalNames]
    | cons f rest ih =>
      cases i with
      | zero => simp [restoreOriginalNames]
      | succ n => simp [restoreOriginalNames, ih]

/-! ## Claims C1 and C3: results per file, output-directory vanishing -/

/-- A run in which the output directory is absent at every per-iteration
`fs.access` check, with no cancellation and a codec that would succeed. -/
def envOutDirGone : Env :=
  { cancelBefore := fun _ => false, outDirOk := fun _ => false,
    outcome := fun _ => Outcome.ok }

/-- A run with no cancellation, the output directory always present and
every codec attempt succeeding. -/
def envAllOk : Env :=
  { cancelBefore := fun _ => false, outDirOk := fun _ => true,
    outcome := fun _ => Outcome.ok }

/-- Counterexample to C1 as stated: a run that is never hard-cancelled
(final cancellation flag false) but whose single scanned file produces no
result: the output-directory check fails, the thrown message contains
`'cancelled'`, and the loop breaks silently. -/
theorem one_result_counterexample :
    (processImagesModel envOutDirGone [⟨"a.jpg"⟩]).2.cancelled = false ∧
    (processImagesModel envOutDirGone [⟨"a.jpg"⟩]).1 =
      RunOutcome.completed [] ∧
    ([] : List PResult).length ≠ [(⟨"a.jpg"⟩ : ImageFile)].length :=
  ⟨rfl, rfl, by decide⟩

/-- C1 (amended): the orchestrator emits exactly one ProcessingResult per
scanned file — in scan order, carrying the file's name — provided the run
is not cancelled, the output directory is present at every check, and no
per-file error message contains the substring `'cancelled'`; a file can
be omitted not only by hard cancellation before it is attempted but also
by the silent break on a vanished output directory or on an error message
containing `'cancelled'`. -/
theorem one_result_per_file (env : Env) (files : List ImageFile)
    (h : ∀ k, k < files.length → env.cancelBefore k = false ∧
      env.outDirOk k = true ∧ env.outcome k ≠ Outcome.cancelMid ∧
      ∀ msg, env.outcome k = Outcome.err msg →
        msgMentionsCancelled msg = false) :
    (processImagesModel env files).1 =
      RunOutcome.completed (expectedList env 0 files) ∧
    (expectedList env 0 files).length = files.length ∧
    (expectedList env 0 files).map PResult.original =
      files.map ImageFile.name := by
  have hrun := runFrom_complete env files 0 initialRunState rfl
    (by intro k hk; simpa using h k hk)
  have hfields := processSharpSequentialM_fields env files
  refine ⟨?_, expectedList_length env 0 files,
    expectedList_map_original env 0 files⟩
  simp only [processImagesModel]
  rw [hfields.2.1, hrun.2]
  simp only [Bool.false_eq_true, if_false]
  rw [hfields.1, hrun.1]
  simp [initialRunState]

/-- Witness for `one_result_per_file`: two files, one of them with an
unsafe name, each yield exactly one Success result. -/
theorem one_result_per_file_witness :
    (processImagesModel envAllOk [⟨"a.jpg"⟩, ⟨"b#c.png"⟩]).1 =
      RunOutcome.completed [PResult.success "a.jpg" "a.webp",
        PResult.success "b#c.png" "b#c.webp"] := by
  have h := (one_result_per_file envAllOk [⟨"a.jpg"⟩, ⟨"b#c.png"⟩]
    (by
      intro k hk
      refine ⟨rfl, rfl, by simp [envAllOk], ?_⟩
      intro msg hmsg
      simp [envAllOk] at hmsg)).1
  rw [h]
  decide

/-- Counterexample to C3 as stated: when the output directory has been
externally removed, the run does not abort with a fatal error distinct
from per-file failures and from cancellation — it completes with the
ordinary success outcome, an empty result list and a clear cancellation
flag. -/
theorem outputFolder_counterexample :
    (processImagesModel envOutDirGone [⟨"a.jpg"⟩, ⟨"b.jpg"⟩]).1 =
      RunOutcome.completed [] ∧
    (processImagesModel envOutDirGone [⟨"a.jpg"⟩, ⟨"b.jpg"⟩]).2.cancelled =
      false :=
  ⟨rfl, rfl⟩

/-- C3 (amended): the orchestrator does verify before each file that the
output directory still exists, but its absence does not surface as a
fatal run error: the thrown message contains `'cancelled'`, the catch
branch breaks the loop without recording a result or setting the
cancellation flag, and the run completes with the ordinary success
outcome carrying the results accumulated so far. -/
theorem outputFolder_absent_silent_break (env : Env) (f : ImageFile)
    (rest : List ImageFile) (h1 : env.cancelBefore 0 = false)
    (h2 : env.outDirOk 0 = false) :
    (processImagesModel env (f :: rest)).1 = RunOutcome.completed [] ∧
    (processImagesModel env (f :: rest)).2.cancelled = false ∧
    (processImagesModel env (f :: rest)).2.processedCount = 0 := by
  have hrun : runFrom env (f :: rest) 0 initialRunState = initialRunState := by
    unfold runFrom
    rw [h1, if_neg (by simp), h2]
    simp
  have hM : processSharpSequentialM env (f :: rest) = initialRunState := by
    simp only [processSharpSequentialM]
    rw [hrun]
    simp [initialRunState]
  simp only [processImagesModel]
  rw [hM]
  simp [initialRunState]

/-- Witness for `outputFolder_absent_silent_break` at a concrete run. -/
theorem outputFolder_absent_silent_break_witness :
    (processImagesModel envOutDirGone [⟨"x.png"⟩]).1 =
      RunOutcome.completed [] ∧
    (processImagesModel envOutDirGone [⟨"x.png"⟩]).2.cancelled = false ∧
    (processImagesModel envOutDirGone [⟨"x.png"⟩]).2.processedCount = 0 :=
  outputFolder_absent_silent_break envOutDirGone ⟨"x.png"⟩ [] rfl rfl

/-! ## Claims C6 and C10: cleanup after cancellation -/

/-- C6 (confirmed): if cancellation is requested before any file completes
— at the first top-of-loop check, or during the first file's processing —
then after the run's cleanup the newly created output directory is absent
and every staging directory created during the run is removed, and the
run surfaces the cancellation outcome. -/
theorem cancel_before_first_completion_cleanup (env : Env) (f : ImageFile)
    (rest : List ImageFile)
    (h : env.cancelBefore 0 = true ∨
      (env.cancelBefore 0 = false ∧ env.outDirOk 0 = true ∧
        env.outcome 0 = Outcome.cancelMid)) :
    (processImagesModel env (f :: rest)).1 = RunOutcome.cancelledOutcome ∧
    (processImagesModel env (f :: rest)).2.outputDirPresent = false ∧
    (processImagesModel env (f :: rest)).2.tempDirPresent = false ∧
    (processImagesModel env (f :: rest)).2.processedCount = 0 := by
  rcases h with hA | ⟨hB1, hB2, hB3⟩
  · simp [processImagesModel, processSharpSequentialM, performCleanup, runFrom,
      initialRunState, hA]
  · by_cases hn : needsSanitization f.name
    · simp [processImagesModel, processSharpSequentialM, performCleanup, runFrom,
        createTempIfNeeded, initialRunState, hB1, hB2, hB3, hn]
    · simp [processImagesModel, processSharpSequentialM, performCleanup, runFrom,
        createTempIfNeeded, initialRunState, hB1, hB2, hB3, hn]

/-- A run cancelled at the very first top-of-loop check. -/
def envCancelAtStart : Env :=
  { cancelBefore := fun _ => true, outDirOk := fun _ => true,
    outcome := fun _ => Outcome.ok }

/-- Witness for `cancel_before_first_completion_cleanup` at a concrete
run cancelled before the first file. -/
theorem cancel_before_first_completion_cleanup_witness :
    (processImagesModel envCancelAtStart [⟨"x.png"⟩]).1 =
      RunOutcome.cancelledOutcome ∧
    (processImagesModel envCancelAtStart [⟨"x.png"⟩]).2.outputDirPresent =
      false ∧
    (processImagesModel envCancelAtStart [⟨"x.png"⟩]).2.tempDirPresent =
      false ∧
    (processImagesModel envCancelAtStart [⟨"x.png"⟩]).2.processedCount = 0 :=
  cancel_before_first_completion_cleanup envCancelAtStart ⟨"x.png"⟩ []
    (Or.inl rfl)

/-- C10 (confirmed): `performCleanup` removes the output directory only
when `processedCount` is exactly zero, and that counter is incremented for
failed attempts as well: if the first file records a Failure (creating no
output file) and cancellation arrives before the second file, the run
surfaces the cancellation outcome but the newly created output directory
is retained, although it contains no outputs. -/
theorem failed_attempt_retains_output_dir (env : Env) (f g : ImageFile)
    (rest : List ImageFile) (msg : String)
    (h1 : env.cancelBefore 0 = false) (h2 : env.outDirOk 0 = true)
    (h3 : env.outcome 0 = Outcome.err msg)
    (h4 : msgMentionsCancelled msg = false)
    (h5 : env.cancelBefore 1 = true) :
    (processImagesModel env (f :: g :: rest)).1 =
      RunOutcome.cancelledOutcome ∧
    (processImagesModel env (f :: g :: rest)).2.processedCount = 1 ∧
    (processImagesModel env (f :: g :: rest)).2.outputFileCount = 0 ∧
    (processImagesModel env (f :: g :: rest)).2.outputDirPresent = true ∧
    (processImagesModel env (f :: g :: rest)).2.results =
      [PResult.failure f.name msg] := by
  by_cases hn : needsSanitization f.name
  · simp [processImagesModel, processSharpSequentialM, performCleanup, runFrom,
      createTempIfNeeded, initialRunState, h1, h2, h3, h4, h5, hn]
  · simp [processImagesModel, processSharpSequentialM, performCleanup, runFrom,
      createTempIfNeeded, initialRunState, h1, h2, h3, h4, h5, hn]

/-- A run whose first file fails with a plain error and which is cancelled
before the second file. -/
def envFailThenCancel : Env :=
  { cancelBefore := fun n => !(n == 0), outDirOk := fun _ => true,
    outcome := fun _ => Outcome.err "boom" }

/-- Witness for `failed_attempt_retains_output_dir` at a concrete run. -/
theorem failed_attempt_retains_output_dir_witness :
    (processImagesModel envFailThenCancel [⟨"a.jpg"⟩, ⟨"b.jpg"⟩]).1 =
      RunOutcome.cancelledOutcome ∧
    (processImagesModel envFailThenCancel [⟨"a.jpg"⟩, ⟨"b.jpg"⟩]).2.processedCount =
      1 ∧
    (processImagesModel envFailThenCancel [⟨"a.jpg"⟩, ⟨"b.jpg"⟩]).2.outputFileCount =
      0 ∧
    (processImagesModel envFailThenCancel [⟨"a.jpg"⟩, ⟨"b.jpg"⟩]).2.outputDirPresent =
      true ∧
    (processImagesModel envFailThenCancel [⟨"a.jpg"⟩, ⟨"b.jpg"⟩]).2.results =
      [PResult.failure "a.jpg" "boom"] :=
  failed_attempt_retains_output_dir envFailThenCancel ⟨"a.jpg"⟩ ⟨"b.jpg"⟩ []
    "boom" rfl rfl rfl (by decide) rfl
